import Mathlib

/-!
# Verification of the indentation-to-tree reconstruction in `request.py`

This file gives a shallow embedding of the tree-reconstruction core of the
repository (`Node`, `Node.add_child`, `parse_tree_structure`) and proves the
specified properties about it.

Python objects are modelled by an arena: the list `nodes` (mirroring the
`nodes` list the code appends every created node to, in creation order),
with parent/child references represented as indices into that arena.
`last_nodes = [None] * 100` is a fixed 100-element list; its unguarded
index accesses are modelled by returning `none` (the `IndexError` case)
from the step function when an index is out of bounds.
-/

/-- Characters stripped by Python's `str.lstrip()` with no argument
(the ASCII whitespace characters). -/
def isPySpace (c : Char) : Bool :=
  c = ' ' || c = '\t' || c = '\n' || c = '\r' || c = '\x0b' || c = '\x0c'

/-- Python `line.lstrip()`: the line with its leading whitespace characters removed. -/
def lstrip (s : String) : String :=
  String.mk (s.data.dropWhile isPySpace)

/-- One tree node: `Node.__init__` fields, with `parent` and `children`
as arena indices instead of object references. -/
structure Node where
  text : String
  level : Nat
  parent : Option Nat
  children : List Nat
deriving Repr, DecidableEq

/-- The working state of `parse_tree_structure`: the `nodes` arena
(creation order), the `root_nodes` accumulator and the `last_nodes`
fixed-size array. -/
structure BuildState where
  nodes : List Node
  root_nodes : List Nat
  last_nodes : List (Option Nat)
deriving Repr, DecidableEq

/-- State at entry of the loop: empty arena, no roots,
`last_nodes = [None] * 100`. -/
def initState : BuildState :=
  { nodes := [], root_nodes := [], last_nodes := List.replicate 100 none }

/-- The node stored at index `i` of the arena, if any. -/
def getNode? (ns : List Node) (i : Nat) : Option Node :=
  ns[i]?

/-- The `level` attribute of arena node `i` (0 when out of bounds). -/
def levelAt (ns : List Node) (i : Nat) : Nat :=
  ((ns[i]?).map Node.level).getD 0

/-- The `text` attribute of arena node `i` (empty when out of bounds). -/
def textAt (ns : List Node) (i : Nat) : String :=
  ((ns[i]?).map Node.text).getD ""

/-- The `parent` attribute of arena node `i` (`none` when out of bounds). -/
def parentAt (ns : List Node) (i : Nat) : Option Nat :=
  (ns[i]?).bind Node.parent

/-- The `children` attribute of arena node `i` (`[]` when out of bounds). -/
def childrenAt (ns : List Node) (i : Nat) : List Nat :=
  ((ns[i]?).map Node.children).getD []

/-- Method `Node.add_child`: append `c` to the children of node `p` and set the
parent back-reference of `c` to `p`. -/
def add_child (ns : List Node) (p c : Nat) : List Node :=
  match ns[p]? with
  | none => ns
  | some pn =>
    let ns1 := ns.set p { pn with children := pn.children ++ [c] }
    match ns1[c]? with
    | none => ns1
    | some cn => ns1.set c { cn with parent := some p }

/-- Assignment `last_nodes[k] = node`, failing (Python `IndexError`) when `k` is out
of bounds of the fixed-size list. -/
def setLast (st : BuildState) (k : Nat) (v : Nat) : Option BuildState :=
  if k < st.last_nodes.length then
    some { st with last_nodes := st.last_nodes.set k (some v) }
  else
    none

/-- The body of the `for line in text_lines` loop of `parse_tree_structure`:
compute the indent and level, skip blank lines, create the node, attach it
(root / child of `last_nodes[level-1]` / orphan) and update
`last_nodes[level]`. `none` models an uncaught `IndexError`. -/
def processLine (st : BuildState) (line : String) : Option BuildState :=
  let stripped := lstrip line
  let indent := line.length - stripped.length
  let level := indent / 2
  if stripped = "" then
    some st
  else
    let idx := st.nodes.length
    let newNode : Node := { text := stripped, level := level, parent := none, children := [] }
    let ns1 := st.nodes ++ [newNode]
    if level = 0 then
      setLast { st with nodes := ns1, root_nodes := st.root_nodes ++ [idx] } level idx
    else
      match st.last_nodes[level - 1]? with
      | none => none
      | some none => setLast { st with nodes := ns1 } level idx
      | some (some p) => setLast { st with nodes := add_child ns1 p idx } level idx

/-- Iterate `processLine` over the remaining lines. -/
def buildAux : List String → BuildState → Option BuildState
  | [], st => some st
  | l :: ls, st =>
    match processLine st l with
    | none => none
    | some st' => buildAux ls st'

/-- Function `parse_tree_structure(text_lines)`: run the loop from the initial state.
The returned state carries the `root_nodes` result together with the arena
needed to interpret its indices. -/
def parse_tree_structure (lines : List String) : Option BuildState :=
  buildAux lines initState

/-- Indices of the depth-first traversal of the subtree rooted at `i`
(`print_tree` order), with explicit fuel for termination. -/
def dfsNode (ns : List Node) : Nat → Nat → List Nat
  | 0, _ => []
  | fuel + 1, i => i :: (childrenAt ns i).flatMap (dfsNode ns fuel)

/-- Indices of the depth-first traversal of the whole returned forest:
roots in order, each followed recursively by its children in order. -/
def dfsForest (st : BuildState) : List Nat :=
  st.root_nodes.flatMap (dfsNode st.nodes st.nodes.length)

/-- Node texts of the returned forest in depth-first traversal order. -/
def dfsTexts (st : BuildState) : List String :=
  (dfsForest st).map (textAt st.nodes)

/-- The chain of ancestors of `i` (starting at `i` itself), following
`parent` back-references; the index guard makes the recursion well-founded
on arbitrary arenas. -/
def ancChain (ns : List Node) (i : Nat) : List Nat :=
  match parentAt ns i with
  | some p => if _ : p < i then i :: ancChain ns p else [i]
  | none => [i]
  termination_by i

/-- The topmost ancestor of `i` (the node reached from `i` by following
`parent` back-references to a node with no parent). -/
def topAnc (ns : List Node) (i : Nat) : Nat :=
  match parentAt ns i with
  | some p => if _ : p < i then topAnc ns p else i
  | none => i
  termination_by i

/-- A node is part of the returned forest iff it is reachable from some
root through `children` links. -/
inductive Reachable (st : BuildState) : Nat → Prop
  | root {i : Nat} : i ∈ st.root_nodes → Reachable st i
  | child {i j : Nat} : Reachable st i → j ∈ childrenAt st.nodes i → Reachable st j

/-- The classification performed on each line, as a standalone function:
`(content, level)` for a line that produces a node, `none` for a line
skipped as blank. -/
def classifyLine (line : String) : Option (String × Nat) :=
  let stripped := lstrip line
  if stripped = "" then none
  else some (stripped, (line.length - stripped.length) / 2)

/-! ## Accessor lemmas -/

theorem getElem?_snoc {α : Type _} (ns : List α) (nd : α) (i : Nat) :
    (ns ++ [nd])[i]? = if i = ns.length then some nd else ns[i]? := by
  rcases lt_trichotomy i ns.length with h | h | h
  · rw [List.getElem?_append_left h, if_neg (Nat.ne_of_lt h)]
  · subst h; simp
  · rw [if_neg (Nat.ne_of_gt h), List.getElem?_append_right (Nat.le_of_lt h),
      List.getElem?_eq_none (l := ns) (Nat.le_of_lt h),
      List.getElem?_eq_none (l := [nd]) (by simp; omega)]

theorem getElem?_set_iff {α : Type _} (ns : List α) (j : Nat) (v : α) (i : Nat) :
    (ns.set j v)[i]? = if i = j ∧ j < ns.length then some v else ns[i]? := by
  rw [List.getElem?_set]
  by_cases h : j = i
  · subst h
    by_cases hlt : j < ns.length
    · simp [hlt]
    · simp [hlt, List.getElem?_eq_none (Nat.le_of_not_lt hlt)]
  · rw [if_neg h, if_neg (by rintro ⟨rfl, -⟩; exact h rfl)]

theorem levelAt_snoc (ns : List Node) (nd : Node) (i : Nat) :
    levelAt (ns ++ [nd]) i = if i = ns.length then nd.level else levelAt ns i := by
  unfold levelAt
  rw [getElem?_snoc]
  split <;> rfl

theorem textAt_snoc (ns : List Node) (nd : Node) (i : Nat) :
    textAt (ns ++ [nd]) i = if i = ns.length then nd.text else textAt ns i := by
  unfold textAt
  rw [getElem?_snoc]
  split <;> rfl

theorem parentAt_snoc (ns : List Node) (nd : Node) (i : Nat) :
    parentAt (ns ++ [nd]) i = if i = ns.length then nd.parent else parentAt ns i := by
  unfold parentAt
  rw [getElem?_snoc]
  split <;> rfl

theorem childrenAt_snoc (ns : List Node) (nd : Node) (i : Nat) :
    childrenAt (ns ++ [nd]) i = if i = ns.length then nd.children else childrenAt ns i := by
  unfold childrenAt
  rw [getElem?_snoc]
  split <;> rfl

theorem add_child_getElem? (ns : List Node) (p c : Nat) (hpc : p ≠ c) (i : Nat) :
    (add_child ns p c)[i]? =
      if p < ns.length then
        (if i = p then (ns[p]?).map (fun pn => { pn with children := pn.children ++ [c] })
         else if i = c then (ns[c]?).map (fun cn => { cn with parent := some p })
         else ns[i]?)
      else ns[i]? := by
  rcases hpn : ns[p]? with _ | pn
  · have hp : ¬ p < ns.length := by
      intro hlt
      rw [List.getElem?_eq_getElem hlt] at hpn
      exact Option.noConfusion hpn
    rw [if_neg hp]
    simp only [add_child, hpn]
  · have hp : p < ns.length := by
      by_contra hlt
      rw [List.getElem?_eq_none (Nat.le_of_not_lt hlt)] at hpn
      exact Option.noConfusion hpn
    rw [if_pos hp]
    have hset : ∀ j : Nat, j ≠ p →
        (ns.set p { pn with children := pn.children ++ [c] })[j]? = ns[j]? := by
      intro j hj
      rw [getElem?_set_iff, if_neg (by rintro ⟨rfl, -⟩; exact hj rfl)]
    simp only [add_child, hpn]
    rcases hcn : ns[c]? with _ | cn
    · rw [hset c (fun h => hpc h.symm), hcn]
      simp only
      by_cases hip : i = p
      · subst hip
        rw [if_pos rfl, getElem?_set_iff, if_pos ⟨rfl, hp⟩]
        rfl
      · rw [if_neg hip, getElem?_set_iff, if_neg (by rintro ⟨rfl, -⟩; exact hip rfl)]
        by_cases hic : i = c
        · subst hic
          rw [if_pos rfl, hcn]
          rfl
        · rw [if_neg hic]
    · rw [hset c (fun h => hpc h.symm), hcn]
      simp only
      by_cases hip : i = p
      · subst hip
        rw [if_pos rfl, getElem?_set_iff, if_neg (by rintro ⟨rfl, -⟩; exact hpc rfl),
          getElem?_set_iff, if_pos ⟨rfl, hp⟩]
        rfl
      · rw [if_neg hip, getElem?_set_iff]
        by_cases hic : i = c
        · subst hic
          have hc : i < ns.length := by
            by_contra hlt
            rw [List.getElem?_eq_none (Nat.le_of_not_lt hlt)] at hcn
            exact Option.noConfusion hcn
          rw [if_pos ⟨rfl, by rw [List.length_set]; exact hc⟩, if_pos rfl]
          rfl
        · rw [if_neg (by rintro ⟨rfl, -⟩; exact hic rfl), if_neg hic,
            hset i (fun h => hip h)]

theorem add_child_length (ns : List Node) (p c : Nat) :
    (add_child ns p c).length = ns.length := by
  unfold add_child
  rcases h : ns[p]? with _ | pn
  · rfl
  · simp only
    rcases h2 : (ns.set p { pn with children := pn.children ++ [c] })[c]? with _ | cn
    · simp
    · simp

theorem levelAt_add_child (ns : List Node) (p c : Nat) (hpc : p ≠ c) (i : Nat) :
    levelAt (add_child ns p c) i = levelAt ns i := by
  unfold levelAt
  rw [add_child_getElem? ns p c hpc]
  split
  · split
    · next hip => subst hip; cases ns[i]? <;> rfl
    · split
      · next hic => subst hic; cases ns[i]? <;> rfl
      · rfl
  · rfl

theorem textAt_add_child (ns : List Node) (p c : Nat) (hpc : p ≠ c) (i : Nat) :
    textAt (add_child ns p c) i = textAt ns i := by
  unfold textAt
  rw [add_child_getElem? ns p c hpc]
  split
  · split
    · next hip => subst hip; cases ns[i]? <;> rfl
    · split
      · next hic => subst hic; cases ns[i]? <;> rfl
      · rfl
  · rfl

theorem childrenAt_add_child_self {ns : List Node} {p c : Nat} (hpc : p ≠ c)
    (hp : p < ns.length) :
    childrenAt (add_child ns p c) p = childrenAt ns p ++ [c] := by
  unfold childrenAt
  rw [add_child_getElem? ns p c hpc p, if_pos hp, if_pos rfl, List.getElem?_eq_getElem hp]
  rfl

theorem childrenAt_add_child_other {ns : List Node} {p c i : Nat} (hpc : p ≠ c)
    (h : i ≠ p) :
    childrenAt (add_child ns p c) i = childrenAt ns i := by
  unfold childrenAt
  rw [add_child_getElem? ns p c hpc i]
  by_cases hp : p < ns.length
  · rw [if_pos hp, if_neg h]
    by_cases hic : i = c
    · subst hic
      rw [if_pos rfl]
      cases ns[i]? <;> rfl
    · rw [if_neg hic]
  · rw [if_neg hp]

theorem parentAt_add_child_self {ns : List Node} {p c : Nat} (hpc : p ≠ c)
    (hp : p < ns.length) (hc : c < ns.length) :
    parentAt (add_child ns p c) c = some p := by
  unfold parentAt
  rw [add_child_getElem? ns p c hpc c, if_pos hp, if_neg (fun hd => hpc hd.symm), if_pos rfl,
    List.getElem?_eq_getElem hc]
  rfl

theorem parentAt_add_child_other {ns : List Node} {p c i : Nat} (hpc : p ≠ c)
    (h : i ≠ c) :
    parentAt (add_child ns p c) i = parentAt ns i := by
  unfold parentAt
  rw [add_child_getElem? ns p c hpc i]
  by_cases hp : p < ns.length
  · rw [if_pos hp]
    by_cases hip : i = p
    · subst hip
      rw [if_pos rfl]
      cases ns[i]? <;> rfl
    · rw [if_neg hip, if_neg h]
  · rw [if_neg hp]

/-! ## The builder invariant -/

/-- The `last_nodes` entry for level `k` as an optional arena index
(`none` both for an empty slot and for an out-of-bounds level). -/
def lastAt (st : BuildState) (k : Nat) : Option Nat :=
  (st.last_nodes[k]?).getD none

/-- Index `p` is the most recently created node at level `k` among the nodes
created strictly before index `b`. -/
def IsLastBefore (ns : List Node) (b k p : Nat) : Prop :=
  p < b ∧ levelAt ns p = k ∧ ∀ q, p < q → q < b → levelAt ns q ≠ k

/-- What a `last_nodes` slot for level `k` holds: `none` iff no node of
level `k` exists, otherwise the most recently created node at level `k`. -/
def LastSpec (ns : List Node) (k : Nat) (o : Option Nat) : Prop :=
  match o with
  | none => ∀ i, i < ns.length → levelAt ns i ≠ k
  | some p => IsLastBefore ns ns.length k p

/-- The structural part of the invariant, about the arena alone: children
links point forward, match the parent back-references, levels increase by
one along edges, and children lists are strictly increasing. -/
structure ArenaInv (ns : List Node) : Prop where
  childFacts : ∀ i j, j ∈ childrenAt ns i →
    i < j ∧ j < ns.length ∧ levelAt ns j = levelAt ns i + 1 ∧ parentAt ns j = some i
  parentChild : ∀ j p, parentAt ns j = some p → j ∈ childrenAt ns p
  childChain : ∀ i, List.Chain' (· < ·) (childrenAt ns i)

/-- Invariant maintained by the `parse_tree_structure` loop. -/
structure BuildInv (st : BuildState) : Prop where
  lastLen : st.last_nodes.length = 100
  levelLt : ∀ i, i < st.nodes.length → levelAt st.nodes i < 100
  lastSpec : ∀ k, LastSpec st.nodes k (lastAt st k)
  arena : ArenaInv st.nodes
  rootsEq : st.root_nodes =
    (List.range st.nodes.length).filter (fun i => levelAt st.nodes i == 0)
  parentIff : ∀ i p, i < st.nodes.length → 1 ≤ levelAt st.nodes i →
    (parentAt st.nodes i = some p ↔ IsLastBefore st.nodes i (levelAt st.nodes i - 1) p)

theorem children_mem_lt {ns : List Node} {i j : Nat} (h : j ∈ childrenAt ns i) :
    i < ns.length := by
  by_contra hlt
  rw [childrenAt, List.getElem?_eq_none (Nat.le_of_not_lt hlt)] at h
  exact absurd h (List.not_mem_nil j)

theorem parentAt_isSome_lt {ns : List Node} {j : Nat} {p : Nat}
    (h : parentAt ns j = some p) : j < ns.length := by
  by_contra hlt
  rw [parentAt, List.getElem?_eq_none (Nat.le_of_not_lt hlt)] at h
  exact Option.noConfusion h

theorem IsLastBefore_congr (ns' ns : List Node) (b : Nat) {k p : Nat}
    (hag : ∀ j, j < b → levelAt ns' j = levelAt ns j) :
    IsLastBefore ns' b k p ↔ IsLastBefore ns b k p := by
  unfold IsLastBefore
  constructor
  · rintro ⟨h1, h2, h3⟩
    exact ⟨h1, (hag p h1) ▸ h2, fun q hq1 hq2 => (hag q hq2) ▸ h3 q hq1 hq2⟩
  · rintro ⟨h1, h2, h3⟩
    exact ⟨h1, (hag p h1).symm ▸ h2, fun q hq1 hq2 => (hag q hq2).symm ▸ h3 q hq1 hq2⟩

theorem IsLastBefore_unique {ns : List Node} {b k p p' : Nat}
    (h : IsLastBefore ns b k p) (h' : IsLastBefore ns b k p') : p = p' := by
  rcases h with ⟨h1, h2, h3⟩
  rcases h' with ⟨h1', h2', h3'⟩
  rcases lt_trichotomy p p' with hlt | heq | hgt
  · exact absurd h2' (h3 p' hlt h1')
  · exact heq
  · exact absurd h2 (h3' p hgt h1)

theorem getD_set_some (l : List (Option Nat)) (j : Nat) (v : Nat) (k : Nat) :
    ((l.set j (some v))[k]?).getD none =
      if k = j ∧ j < l.length then some v else (l[k]?).getD none := by
  rw [getElem?_set_iff]
  split
  · rfl
  · rfl

/-- The level `parse_tree_structure` computes for a line
(`indent // 2` with `indent = len(line) - len(line.lstrip())`). -/
def lineLevel (line : String) : Nat :=
  (line.length - (lstrip line).length) / 2

theorem processLine_skip {st : BuildState} {line : String} (h : lstrip line = "") :
    processLine st line = some st := by
  simp [processLine, h]

theorem processLine_inversion {st st' : BuildState} {line : String}
    (hne : lstrip line ≠ "") (h : processLine st line = some st') :
    (lineLevel line = 0 ∧ lineLevel line < st.last_nodes.length ∧
       st' = { nodes := st.nodes ++ [⟨lstrip line, lineLevel line, none, []⟩],
               root_nodes := st.root_nodes ++ [st.nodes.length],
               last_nodes := st.last_nodes.set (lineLevel line) (some st.nodes.length) }) ∨
    (1 ≤ lineLevel line ∧ lineLevel line < st.last_nodes.length ∧
       st.last_nodes[lineLevel line - 1]? = some none ∧
       st' = { nodes := st.nodes ++ [⟨lstrip line, lineLevel line, none, []⟩],
               root_nodes := st.root_nodes,
               last_nodes := st.last_nodes.set (lineLevel line) (some st.nodes.length) }) ∨
    (∃ p, 1 ≤ lineLevel line ∧ lineLevel line < st.last_nodes.length ∧
       st.last_nodes[lineLevel line - 1]? = some (some p) ∧
       st' = { nodes :=
                 add_child (st.nodes ++ [⟨lstrip line, lineLevel line, none, []⟩])
                   p st.nodes.length,
               root_nodes := st.root_nodes,
               last_nodes := st.last_nodes.set (lineLevel line) (some st.nodes.length) }) := by
  unfold processLine at h
  simp only [if_neg hne] at h
  by_cases hl : (line.length - (lstrip line).length) / 2 = 0
  · left
    rw [if_pos hl] at h
    unfold setLast at h
    split at h
    · next hlt =>
      cases h
      exact ⟨hl, hlt, rfl⟩
    · exact Option.noConfusion h
  · rw [if_neg hl] at h
    have h1 : 1 ≤ lineLevel line := Nat.one_le_iff_ne_zero.mpr hl
    split at h
    · exact Option.noConfusion h
    · next heq =>
      right; left
      unfold setLast at h
      split at h
      · next hlt =>
        cases h
        exact ⟨h1, hlt, heq, rfl⟩
      · exact Option.noConfusion h
    · next p heq =>
      right; right
      unfold setLast at h
      split at h
      · next hlt =>
        cases h
        exact ⟨p, h1, hlt, heq, rfl⟩
      · exact Option.noConfusion h

/-! ## Preservation of the invariant by one loop iteration -/

theorem LastSpec_snoc_ne {ns : List Node} {k : Nat} {o : Option Nat} {nd : Node}
    (h : LastSpec ns k o) (hnd : nd.level ≠ k) : LastSpec (ns ++ [nd]) k o := by
  cases o with
  | none =>
    intro i hi
    rw [List.length_append, List.length_singleton] at hi
    rw [levelAt_snoc]
    by_cases hin : i = ns.length
    · rw [if_pos hin]; exact hnd
    · rw [if_neg hin]; exact h i (by omega)
  | some p =>
    obtain ⟨h1, h2, h3⟩ := h
    refine ⟨?_, ?_, ?_⟩
    · rw [List.length_append, List.length_singleton]; omega
    · rw [levelAt_snoc, if_neg (Nat.ne_of_lt h1)]; exact h2
    · intro q hq1 hq2
      rw [List.length_append, List.length_singleton] at hq2
      rw [levelAt_snoc]
      by_cases hqn : q = ns.length
      · rw [if_pos hqn]; exact hnd
      · rw [if_neg hqn]; exact h3 q hq1 (by omega)

theorem LastSpec_snoc_self (ns : List Node) (nd : Node) :
    LastSpec (ns ++ [nd]) nd.level (some ns.length) := by
  refine ⟨?_, ?_, ?_⟩
  · rw [List.length_append, List.length_singleton]; omega
  · rw [levelAt_snoc, if_pos rfl]
  · intro q hq1 hq2
    rw [List.length_append, List.length_singleton] at hq2
    omega

theorem ArenaInv_snoc {ns : List Node} {nd : Node} (h : ArenaInv ns)
    (hp : nd.parent = none) (hc : nd.children = []) : ArenaInv (ns ++ [nd]) := by
  refine ⟨?_, ?_, ?_⟩
  · intro i j hj
    rw [childrenAt_snoc] at hj
    by_cases hi : i = ns.length
    · rw [if_pos hi, hc] at hj
      exact absurd hj (List.not_mem_nil j)
    · rw [if_neg hi] at hj
      obtain ⟨h1, h2, h3, h4⟩ := h.childFacts i j hj
      refine ⟨h1, ?_, ?_, ?_⟩
      · rw [List.length_append, List.length_singleton]; omega
      · rw [levelAt_snoc, levelAt_snoc, if_neg (Nat.ne_of_lt h2), if_neg hi]
        exact h3
      · rw [parentAt_snoc, if_neg (Nat.ne_of_lt h2)]
        exact h4
  · intro j p hjp
    rw [parentAt_snoc] at hjp
    by_cases hj : j = ns.length
    · rw [if_pos hj, hp] at hjp
      exact Option.noConfusion hjp
    · rw [if_neg hj] at hjp
      have hmem := h.parentChild j p hjp
      rw [childrenAt_snoc, if_neg (Nat.ne_of_lt (children_mem_lt hmem))]
      exact hmem
  · intro i
    rw [childrenAt_snoc]
    by_cases hi : i = ns.length
    · rw [if_pos hi, hc]
      exact List.chain'_nil
    · rw [if_neg hi]
      exact h.childChain i

theorem ArenaInv_attach {ns : List Node} {s : String} {L p : Nat} (h : ArenaInv ns)
    (hp : p < ns.length) (hpl : levelAt ns p = L - 1) (hL : 1 ≤ L) :
    ArenaInv (add_child (ns ++ [⟨s, L, none, []⟩]) p ns.length) := by
  set nd : Node := ⟨s, L, none, []⟩ with hnd
  set idx := ns.length with hidx
  have hpc : p ≠ idx := Nat.ne_of_lt hp
  have hlen1 : (ns ++ [nd]).length = ns.length + 1 := by
    rw [List.length_append, List.length_singleton]
  have hp1 : p < (ns ++ [nd]).length := by omega
  have hidx1 : idx < (ns ++ [nd]).length := by omega
  have hlen2 : (add_child (ns ++ [nd]) p idx).length = ns.length + 1 := by
    rw [add_child_length, hlen1]
  have hlev : ∀ i, levelAt (add_child (ns ++ [nd]) p idx) i = levelAt (ns ++ [nd]) i :=
    levelAt_add_child _ _ _ hpc
  have hchp : childrenAt (add_child (ns ++ [nd]) p idx) p = childrenAt ns p ++ [idx] := by
    rw [childrenAt_add_child_self hpc hp1, childrenAt_snoc, if_neg hpc]
  have hcho : ∀ i, i ≠ p →
      childrenAt (add_child (ns ++ [nd]) p idx) i = childrenAt (ns ++ [nd]) i :=
    fun i hi => childrenAt_add_child_other hpc hi
  have hparidx : parentAt (add_child (ns ++ [nd]) p idx) idx = some p :=
    parentAt_add_child_self hpc hp1 hidx1
  have hparo : ∀ i, i ≠ idx →
      parentAt (add_child (ns ++ [nd]) p idx) i = parentAt (ns ++ [nd]) i :=
    fun i hi => parentAt_add_child_other hpc hi
  refine ⟨?_, ?_, ?_⟩
  · intro i j hj
    by_cases hi : i = p
    · subst hi
      rw [hchp] at hj
      rcases List.mem_append.mp hj with hj' | hj'
    

      · obtain ⟨h1, h2, h3, h4⟩ := h.childFacts i j hj'
        refine ⟨h1, by omega, ?_, ?_⟩
        · rw [hlev, hlev, levelAt_snoc, levelAt_snoc, if_neg (Nat.ne_of_lt h2),
            if_neg (Nat.ne_of_lt hp)]
          exact h3
        · rw [hparo j (Nat.ne_of_lt h2), parentAt_snoc, if_neg (Nat.ne_of_lt h2)]
          exact h4
      · rw [List.mem_singleton] at hj'
        subst hj'
        refine ⟨hp, by omega, ?_, hparidx⟩
        rw [hlev, hlev, levelAt_snoc, levelAt_snoc, if_pos rfl, if_neg (Nat.ne_of_lt hp)]
        rw [hpl]
        show L = L - 1 + 1
        omega
    · rw [hcho i hi, childrenAt_snoc] at hj
      by_cases hin : i = idx
      · rw [if_pos hin] at hj
        exact absurd hj (List.not_mem_nil j)
      · rw [if_neg hin] at hj
        obtain ⟨h1, h2, h3, h4⟩ := h.childFacts i j hj
        refine ⟨h1, by omega, ?_, ?_⟩
        · rw [hlev, hlev, levelAt_snoc, levelAt_snoc, if_neg (Nat.ne_of_lt h2), if_neg hin]
          exact h3
        · rw [hparo j (Nat.ne_of_lt h2), parentAt_snoc, if_neg (Nat.ne_of_lt h2)]
          exact h4
  · intro j q hjq
    by_cases hj : j = idx
    · subst hj
      rw [hparidx] at hjq
      cases hjq
      rw [hchp]
      exact List.mem_append.mpr (Or.inr (List.mem_singleton.mpr rfl))
    · rw [hparo j hj, parentAt_snoc, if_neg hj] at hjq
      have hmem := h.parentChild j q hjq
      have hqlt : q < ns.length := children_mem_lt hmem
      by_cases hqp : q = p
      · subst hqp
        rw [hchp]
        exact List.mem_append.mpr (Or.inl hmem)
      · rw [hcho q hqp, childrenAt_snoc, if_neg (Nat.ne_of_lt hqlt)]
        exact hmem
  · intro i
    by_cases hi : i = p
    · subst hi
      rw [hchp]
      rw [List.chain'_append]
      refine ⟨h.childChain i, List.chain'_singleton idx, ?_⟩
      intro x hx y hy
      rw [List.head?_cons, Option.mem_some_iff] at hy
      subst hy
      obtain ⟨hne, hxl⟩ := List.mem_getLast?_eq_getLast hx
      have : x ∈ childrenAt ns i := hxl ▸ List.getLast_mem hne
      exact (h.childFacts i x this).2.1
    · rw [hcho i hi, childrenAt_snoc]
      by_cases hin : i = idx
      · rw [if_pos hin]
        exact List.chain'_nil
      · rw [if_neg hin]
        exact h.childChain i

theorem LastSpec_congr {ns ns' : List Node} {k : Nat} {o : Option Nat}
    (hlen : ns'.length = ns.length)
    (hag : ∀ j, j < ns.length → levelAt ns' j = levelAt ns j)
    (h : LastSpec ns k o) : LastSpec ns' k o := by
  cases o with
  | none =>
    intro i hi
    rw [hlen] at hi
    rw [hag i hi]
    exact h i hi
  | some p =>
    obtain ⟨h1, h2, h3⟩ := h
    refine ⟨by omega, by rw [hag p h1]; exact h2, ?_⟩
    intro q hq1 hq2
    rw [hlen] at hq2
    rw [hag q hq2]
    exact h3 q hq1 hq2

theorem rootsFilter_snoc (ns : List Node) (nd : Node) :
    (List.range (ns ++ [nd]).length).filter (fun i => levelAt (ns ++ [nd]) i == 0) =
      ((List.range ns.length).filter (fun i => levelAt ns i == 0)) ++
        (if nd.level = 0 then [ns.length] else []) := by
  rw [List.length_append, List.length_singleton, List.range_succ, List.filter_append]
  congr 1
  · apply List.filter_congr
    intro i hi
    rw [List.mem_range] at hi
    rw [levelAt_snoc, if_neg (Nat.ne_of_lt hi)]
  · rw [List.filter_singleton]
    rw [show (levelAt (ns ++ [nd]) ns.length == 0) = (nd.level == 0) by
      rw [levelAt_snoc, if_pos rfl]]
    by_cases h0 : nd.level = 0
    · rw [show (nd.level == 0) = true by simp [h0], if_pos h0]
      rfl
    · rw [show (nd.level == 0) = false by simp [h0], if_neg h0]
      rfl

theorem BuildInv_step_root {st : BuildState} (hInv : BuildInv st) (s : String) :
    BuildInv { nodes := st.nodes ++ [⟨s, 0, none, []⟩],
               root_nodes := st.root_nodes ++ [st.nodes.length],
               last_nodes := st.last_nodes.set 0 (some st.nodes.length) } := by
  have h0 : (0 : Nat) < st.last_nodes.length := by rw [hInv.lastLen]; omega
  refine ⟨?_, ?_, ?_, ?_, ?_, ?_⟩
  · show (st.last_nodes.set 0 (some st.nodes.length)).length = 100
    rw [List.length_set]
    exact hInv.lastLen
  · intro i hi
    show levelAt (st.nodes ++ [⟨s, 0, none, []⟩]) i < 100
    rw [List.length_append, List.length_singleton] at hi
    rw [levelAt_snoc]
    by_cases hin : i = st.nodes.length
    · rw [if_pos hin]
      show (0 : Nat) < 100
      omega
    · rw [if_neg hin]
      exact hInv.levelLt i (by omega)
  · intro k
    show LastSpec (st.nodes ++ [⟨s, 0, none, []⟩]) k
      (((st.last_nodes.set 0 (some st.nodes.length))[k]?).getD none)
    rw [getD_set_some]
    by_cases hk : k = 0
    · subst hk
      have hcond : (0 : Nat) = 0 ∧ 0 < st.last_nodes.length := ⟨rfl, h0⟩
      rw [if_pos hcond]
      exact LastSpec_snoc_self st.nodes ⟨s, 0, none, []⟩
    · rw [if_neg (fun hd => hk hd.1)]
      exact LastSpec_snoc_ne (hInv.lastSpec k) (fun hh => hk hh.symm)
  · exact ArenaInv_snoc hInv.arena rfl rfl
  · show st.root_nodes ++ [st.nodes.length] =
      (List.range (st.nodes ++ [(⟨s, 0, none, []⟩ : Node)]).length).filter
        (fun i => levelAt (st.nodes ++ [⟨s, 0, none, []⟩]) i == 0)
    rw [rootsFilter_snoc, if_pos rfl, ← hInv.rootsEq]
  · intro i q hi hlev
    show parentAt (st.nodes ++ [⟨s, 0, none, []⟩]) i = some q ↔
      IsLastBefore (st.nodes ++ [⟨s, 0, none, []⟩]) i
        (levelAt (st.nodes ++ [⟨s, 0, none, []⟩]) i - 1) q
    rw [List.length_append, List.length_singleton] at hi
    by_cases hin : i = st.nodes.length
    · exfalso
      rw [levelAt_snoc, if_pos hin] at hlev
      revert hlev
      show ¬ 1 ≤ (0 : Nat)
      omega
    · have hilt : i < st.nodes.length := by omega
      have hcongr : ∀ k : Nat, IsLastBefore (st.nodes ++ [⟨s, 0, none, []⟩]) i k q ↔
          IsLastBefore st.nodes i k q := fun k =>
        IsLastBefore_congr _ st.nodes i (fun j hj => by
          rw [levelAt_snoc, if_neg (Nat.ne_of_lt (by omega : j < st.nodes.length))])
      rw [parentAt_snoc, if_neg hin, levelAt_snoc, if_neg hin]
      rw [levelAt_snoc, if_neg hin] at hlev
      exact (hInv.parentIff i q hilt hlev).trans (hcongr _).symm

theorem BuildInv_step_orphan {st : BuildState} (hInv : BuildInv st) (s : String) (L : Nat)
    (hL : 1 ≤ L) (hlt : L < st.last_nodes.length)
    (hnone : st.last_nodes[L - 1]? = some none) :
    BuildInv { nodes := st.nodes ++ [⟨s, L, none, []⟩],
               root_nodes := st.root_nodes,
               last_nodes := st.last_nodes.set L (some st.nodes.length) } := by
  have hL100 : L < 100 := by rw [hInv.lastLen] at hlt; exact hlt
  have hlastnone : ∀ j, j < st.nodes.length → levelAt st.nodes j ≠ L - 1 := by
    have hspec := hInv.lastSpec (L - 1)
    rw [show lastAt st (L - 1) = none by rw [lastAt, hnone]; rfl] at hspec
    exact hspec
  refine ⟨?_, ?_, ?_, ?_, ?_, ?_⟩
  · show (st.last_nodes.set L (some st.nodes.length)).length = 100
    rw [List.length_set]
    exact hInv.lastLen
  · intro i hi
    show levelAt (st.nodes ++ [⟨s, L, none, []⟩]) i < 100
    rw [List.length_append, List.length_singleton] at hi
    rw [levelAt_snoc]
    by_cases hin : i = st.nodes.length
    · rw [if_pos hin]
      exact hL100
    · rw [if_neg hin]
      exact hInv.levelLt i (by omega)
  · intro k
    show LastSpec (st.nodes ++ [⟨s, L, none, []⟩]) k
      (((st.last_nodes.set L (some st.nodes.length))[k]?).getD none)
    rw [getD_set_some]
    by_cases hk : k = L
    · subst hk
      have hcond : k = k ∧ k < st.last_nodes.length := ⟨rfl, hlt⟩
      rw [if_pos hcond]
      exact LastSpec_snoc_self st.nodes ⟨s, k, none, []⟩
    · rw [if_neg (fun hd => hk hd.1)]
      exact LastSpec_snoc_ne (hInv.lastSpec k) (fun hh => hk hh.symm)
  · exact ArenaInv_snoc hInv.arena rfl rfl
  · show st.root_nodes =
      (List.range (st.nodes ++ [(⟨s, L, none, []⟩ : Node)]).length).filter
        (fun i => levelAt (st.nodes ++ [⟨s, L, none, []⟩]) i == 0)
    rw [rootsFilter_snoc, if_neg (by show ¬ L = 0; omega), List.append_nil]
    exact hInv.rootsEq
  · intro i q hi hlev
    show parentAt (st.nodes ++ [⟨s, L, none, []⟩]) i = some q ↔
      IsLastBefore (st.nodes ++ [⟨s, L, none, []⟩]) i
        (levelAt (st.nodes ++ [⟨s, L, none, []⟩]) i - 1) q
    rw [List.length_append, List.length_singleton] at hi
    by_cases hin : i = st.nodes.length
    · rw [parentAt_snoc, if_pos hin, levelAt_snoc, if_pos hin]
      constructor
      · intro hcontra
        exact Option.noConfusion hcontra
      · intro hlast
        exfalso
        obtain ⟨hq1, hq2, -⟩ := hlast
        rw [levelAt_snoc, if_neg (Nat.ne_of_lt (by omega : q < st.nodes.length))] at hq2
        exact hlastnone q (by omega) hq2
    · have hilt : i < st.nodes.length := by omega
      have hcongr : ∀ k : Nat, IsLastBefore (st.nodes ++ [⟨s, L, none, []⟩]) i k q ↔
          IsLastBefore st.nodes i k q := fun k =>
        IsLastBefore_congr _ st.nodes i (fun j hj => by
          rw [levelAt_snoc, if_neg (Nat.ne_of_lt (by omega : j < st.nodes.length))])
      rw [parentAt_snoc, if_neg hin, levelAt_snoc, if_neg hin]
      rw [levelAt_snoc, if_neg hin] at hlev
      exact (hInv.parentIff i q hilt hlev).trans (hcongr _).symm

set_option maxHeartbeats 1000000 in
theorem BuildInv_step_attach {st : BuildState} (hInv : BuildInv st) (s : String) (L p : Nat)
    (hL : 1 ≤ L) (hlt : L < st.last_nodes.length)
    (hsome : st.last_nodes[L - 1]? = some (some p)) :
    BuildInv { nodes := add_child (st.nodes ++ [⟨s, L, none, []⟩]) p st.nodes.length,
               root_nodes := st.root_nodes,
               last_nodes := st.last_nodes.set L (some st.nodes.length) } := by
  have hL100 : L < 100 := by rw [hInv.lastLen] at hlt; exact hlt
  have hplast : IsLastBefore st.nodes st.nodes.length (L - 1) p := by
    have hspec := hInv.lastSpec (L - 1)
    rw [show lastAt st (L - 1) = some p by rw [lastAt, hsome]; rfl] at hspec
    exact hspec
  obtain ⟨hplt, hpl, hpmax⟩ := hplast
  have hpc : p ≠ st.nodes.length := Nat.ne_of_lt hplt
  have hlen1 : (st.nodes ++ [(⟨s, L, none, []⟩ : Node)]).length = st.nodes.length + 1 := by
    rw [List.length_append, List.length_singleton]
  have hlev2 : ∀ i, levelAt (add_child (st.nodes ++ [⟨s, L, none, []⟩]) p st.nodes.length) i
      = levelAt (st.nodes ++ [⟨s, L, none, []⟩]) i :=
    levelAt_add_child _ _ _ hpc
  have hlen2 : (add_child (st.nodes ++ [(⟨s, L, none, []⟩ : Node)]) p st.nodes.length).length
      = st.nodes.length + 1 := by
    rw [add_child_length, hlen1]
  have hparo : ∀ i, i ≠ st.nodes.length →
      parentAt (add_child (st.nodes ++ [⟨s, L, none, []⟩]) p st.nodes.length) i
        = parentAt (st.nodes ++ [⟨s, L, none, []⟩]) i :=
    fun i hi => parentAt_add_child_other hpc hi
  have hparidx : parentAt (add_child (st.nodes ++ [⟨s, L, none, []⟩]) p st.nodes.length)
      st.nodes.length = some p :=
    parentAt_add_child_self hpc (by omega) (by omega)
  refine ⟨?_, ?_, ?_, ?_, ?_, ?_⟩
  · show (st.last_nodes.set L (some st.nodes.length)).length = 100
    rw [List.length_set]
    exact hInv.lastLen
  · intro i hi
    show levelAt (add_child (st.nodes ++ [⟨s, L, none, []⟩]) p st.nodes.length) i < 100
    rw [hlen2] at hi
    rw [hlev2, levelAt_snoc]
    by_cases hin : i = st.nodes.length
    · rw [if_pos hin]
      exact hL100
    · rw [if_neg hin]
      exact hInv.levelLt i (by omega)
  · intro k
    show LastSpec (add_child (st.nodes ++ [⟨s, L, none, []⟩]) p st.nodes.length) k
      (((st.last_nodes.set L (some st.nodes.length))[k]?).getD none)
    rw [getD_set_some]
    have htrans : ∀ o : Option Nat, LastSpec (st.nodes ++ [⟨s, L, none, []⟩]) k o →
        LastSpec (add_child (st.nodes ++ [⟨s, L, none, []⟩]) p st.nodes.length) k o :=
      fun o => LastSpec_congr (by rw [add_child_length]) (fun j hj => hlev2 j)
    by_cases hk : k = L
    · subst hk
      have hcond : k = k ∧ k < st.last_nodes.length := ⟨rfl, hlt⟩
      rw [if_pos hcond]
      exact htrans _ (LastSpec_snoc_self st.nodes ⟨s, k, none, []⟩)
    · rw [if_neg (fun hd => hk hd.1)]
      exact htrans _ (LastSpec_snoc_ne (hInv.lastSpec k) (fun hh => hk hh.symm))
  · exact ArenaInv_attach hInv.arena hplt hpl hL
  · show st.root_nodes =
      (List.range (add_child (st.nodes ++ [(⟨s, L, none, []⟩ : Node)])
          p st.nodes.length).length).filter
        (fun i => levelAt (add_child (st.nodes ++ [⟨s, L, none, []⟩]) p st.nodes.length) i == 0)
    have hfeq : (List.range (add_child (st.nodes ++ [(⟨s, L, none, []⟩ : Node)])
          p st.nodes.length).length).filter
        (fun i => levelAt (add_child (st.nodes ++ [⟨s, L, none, []⟩]) p st.nodes.length) i == 0)
        = (List.range (st.nodes ++ [(⟨s, L, none, []⟩ : Node)]).length).filter
            (fun i => levelAt (st.nodes ++ [⟨s, L, none, []⟩]) i == 0) := by
      rw [add_child_length]
      apply List.filter_congr
      intro i hi
      rw [hlev2]
    rw [hfeq, rootsFilter_snoc, if_neg (by show ¬ L = 0; omega), List.append_nil]
    exact hInv.rootsEq
  · intro i q hi hlev
    show parentAt (add_child (st.nodes ++ [⟨s, L, none, []⟩]) p st.nodes.length) i = some q ↔
      IsLastBefore (add_child (st.nodes ++ [⟨s, L, none, []⟩]) p st.nodes.length) i
        (levelAt (add_child (st.nodes ++ [⟨s, L, none, []⟩]) p st.nodes.length) i - 1) q
    rw [hlen2] at hi
    by_cases hin : i = st.nodes.length
    · subst hin
      rw [hparidx, hlev2, levelAt_snoc, if_pos rfl]
      show some p = some q ↔
        IsLastBefore (add_child (st.nodes ++ [⟨s, L, none, []⟩]) p st.nodes.length)
          st.nodes.length (L - 1) q
      constructor
      · intro hq
        cases hq
        refine ⟨hplt, ?_, ?_⟩
        · rw [hlev2, levelAt_snoc, if_neg hpc]
          exact hpl
        · intro r hr1 hr2
          rw [hlev2, levelAt_snoc, if_neg (Nat.ne_of_lt hr2)]
          exact hpmax r hr1 hr2
      · intro hq
        obtain ⟨hq1, hq2, hq3⟩ := hq
        rw [hlev2, levelAt_snoc, if_neg (Nat.ne_of_lt hq1)] at hq2
        have hqlast : IsLastBefore st.nodes st.nodes.length (L - 1) q :=
          ⟨hq1, hq2, fun r hr1 hr2 => by
            have hr := hq3 r hr1 hr2
            rw [hlev2, levelAt_snoc, if_neg (Nat.ne_of_lt hr2)] at hr
            exact hr⟩
        rw [IsLastBefore_unique ⟨hplt, hpl, hpmax⟩ hqlast]
    · have hilt : i < st.nodes.length := by omega
      have hcongr : ∀ k : Nat,
          IsLastBefore (add_child (st.nodes ++ [⟨s, L, none, []⟩]) p st.nodes.length) i k q ↔
          IsLastBefore st.nodes i k q := fun k =>
        IsLastBefore_congr _ st.nodes i (fun j hj => by
          rw [hlev2, levelAt_snoc, if_neg (Nat.ne_of_lt (by omega : j < st.nodes.length))])
      rw [hparo i hin, parentAt_snoc, if_neg hin, hlev2, levelAt_snoc, if_neg hin]
      rw [hlev2, levelAt_snoc, if_neg hin] at hlev
      exact (hInv.parentIff i q hilt hlev).trans (hcongr _).symm

/-! ## The invariant holds for every successful run -/

theorem BuildInv_init : BuildInv initState := by
  refine ⟨?_, ?_, ?_, ⟨?_, ?_, ?_⟩, ?_, ?_⟩
  · show (List.replicate 100 (none : Option Nat)).length = 100
    rw [List.length_replicate]
  · intro i hi
    exact absurd hi (by simp [initState])
  · intro k
    show LastSpec [] k (((List.replicate 100 (none : Option Nat))[k]?).getD none)
    have hrep : ((List.replicate 100 (none : Option Nat))[k]?).getD none = (none : Option Nat) := by
      rw [List.getElem?_replicate]
      split <;> rfl
    rw [hrep]
    intro i hi
    exact absurd hi (by simp)
  · intro i j hj
    exact absurd hj (by simp [childrenAt, initState])
  · intro j p hjp
    exact absurd hjp (by simp [parentAt, initState])
  · intro i
    show List.Chain' (· < ·) (childrenAt [] i)
    simp [childrenAt]
  · rfl
  · intro i q hi
    exact absurd hi (by simp [initState])

theorem processLine_BuildInv {st st' : BuildState} {line : String}
    (h : processLine st line = some st') (hInv : BuildInv st) : BuildInv st' := by
  by_cases hskip : lstrip line = ""
  · rw [processLine_skip hskip] at h
    cases h
    exact hInv
  · rcases processLine_inversion hskip h with ⟨hl, hlt, rfl⟩ | ⟨h1, hlt, hnone, rfl⟩ |
      ⟨p, h1, hlt, hsome, rfl⟩
    · rw [hl]
      exact BuildInv_step_root hInv (lstrip line)
    · exact BuildInv_step_orphan hInv (lstrip line) (lineLevel line) h1 hlt hnone
    · exact BuildInv_step_attach hInv (lstrip line) (lineLevel line) p h1 hlt hsome

theorem buildAux_BuildInv :
    ∀ (lines : List String) (st st' : BuildState),
      buildAux lines st = some st' → BuildInv st → BuildInv st'
  | [], st, st', h, hInv => by
    cases h
    exact hInv
  | l :: ls, st, st', h, hInv => by
    unfold buildAux at h
    rcases hstep : processLine st l with _ | st1
    · rw [hstep] at h
      exact Option.noConfusion h
    · rw [hstep] at h
      exact buildAux_BuildInv ls st1 st' h (processLine_BuildInv hstep hInv)

theorem parse_BuildInv {lines : List String} {st : BuildState}
    (h : parse_tree_structure lines = some st) : BuildInv st :=
  buildAux_BuildInv lines initState st h BuildInv_init

/-! ## The created nodes are exactly the classified lines, in order -/

theorem map_pair_add_child (ns : List Node) (p c : Nat) (hpc : p ≠ c) :
    (add_child ns p c).map (fun nd => (nd.text, nd.level)) =
      ns.map (fun nd => (nd.text, nd.level)) := by
  apply List.ext_getElem?
  intro i
  rw [List.getElem?_map, List.getElem?_map, add_child_getElem? ns p c hpc i]
  split
  · split
    · next hip => subst hip; cases ns[i]? <;> rfl
    · split
      · next hic => subst hic; cases ns[i]? <;> rfl
      · rfl
  · rfl

theorem processLine_pairs {st st' : BuildState} {line : String}
    (hInv : BuildInv st) (h : processLine st line = some st') :
    st'.nodes.map (fun nd => (nd.text, nd.level)) =
      st.nodes.map (fun nd => (nd.text, nd.level)) ++ (classifyLine line).toList := by
  by_cases hskip : lstrip line = ""
  · rw [processLine_skip hskip] at h
    cases h
    simp [classifyLine, hskip]
  · have hcl : (classifyLine line).toList = [(lstrip line, lineLevel line)] := by
      simp [classifyLine, hskip]
      rfl
    rcases processLine_inversion hskip h with ⟨hl, hlt, rfl⟩ | ⟨h1, hlt, hnone, rfl⟩ |
      ⟨p, h1, hlt, hsome, rfl⟩
    · show (st.nodes ++ [(⟨lstrip line, lineLevel line, none, []⟩ : Node)]).map _ = _
      rw [List.map_append, hcl]
      rfl
    · show (st.nodes ++ [(⟨lstrip line, lineLevel line, none, []⟩ : Node)]).map _ = _
      rw [List.map_append, hcl]
      rfl
    · show (add_child (st.nodes ++ [(⟨lstrip line, lineLevel line, none, []⟩ : Node)])
          p st.nodes.length).map _ = _
      have hplt : p < st.nodes.length := by
        have hspec := hInv.lastSpec (lineLevel line - 1)
        rw [show lastAt st (lineLevel line - 1) = some p by rw [lastAt, hsome]; rfl] at hspec
        exact hspec.1
      rw [map_pair_add_child _ _ _ (Nat.ne_of_lt hplt), List.map_append, hcl]
      rfl

theorem buildAux_pairs :
    ∀ (lines : List String) (st st' : BuildState), BuildInv st →
      buildAux lines st = some st' →
      st'.nodes.map (fun nd => (nd.text, nd.level)) =
        st.nodes.map (fun nd => (nd.text, nd.level)) ++
          lines.flatMap (fun l => (classifyLine l).toList)
  | [], st, st', _, h => by
    cases h
    simp
  | l :: ls, st, st', hInv, h => by
    unfold buildAux at h
    rcases hstep : processLine st l with _ | st1
    · rw [hstep] at h
      exact Option.noConfusion h
    · rw [hstep] at h
      rw [buildAux_pairs ls st1 st' (processLine_BuildInv hstep hInv) h,
        processLine_pairs hInv hstep, List.flatMap_cons, List.append_assoc]

theorem parse_pairs {lines : List String} {st : BuildState}
    (h : parse_tree_structure lines = some st) :
    st.nodes.map (fun nd => (nd.text, nd.level)) =
      lines.flatMap (fun l => (classifyLine l).toList) := by
  have := buildAux_pairs lines initState st BuildInv_init h
  rw [this]
  rfl

/-! ## Auxiliary lemmas for the claims -/

theorem buildAux_blank :
    ∀ (lines : List String) (st : BuildState), (∀ l ∈ lines, lstrip l = "") →
      buildAux lines st = some st
  | [], _, _ => rfl
  | l :: ls, st, h => by
    unfold buildAux
    rw [processLine_skip (h l (List.mem_cons_self l ls))]
    exact buildAux_blank ls st (fun l' hl' => h l' (List.mem_cons_of_mem l hl'))

theorem processLine_oob {st : BuildState} {line : String}
    (hlen : st.last_nodes.length = 100) (hne : lstrip line ≠ "")
    (hge : 100 ≤ lineLevel line) : processLine st line = none := by
  have hge' : 100 ≤ (line.length - (lstrip line).length) / 2 := hge
  unfold processLine
  rw [if_neg hne, if_neg (by omega : ¬ (line.length - (lstrip line).length) / 2 = 0)]
  by_cases hread : (line.length - (lstrip line).length) / 2 - 1 < st.last_nodes.length
  · have h100 : (line.length - (lstrip line).length) / 2 = 100 := by omega
    rcases hv : st.last_nodes[(line.length - (lstrip line).length) / 2 - 1]? with _ | o
    · rfl
    · rcases o with _ | p
      · show setLast _ _ _ = none
        unfold setLast
        rw [if_neg (by omega : ¬ (line.length - (lstrip line).length) / 2 < st.last_nodes.length)]
      · show setLast _ _ _ = none
        unfold setLast
        rw [if_neg (by omega : ¬ (line.length - (lstrip line).length) / 2 < st.last_nodes.length)]
  · rw [List.getElem?_eq_none
      (by omega : st.last_nodes.length ≤ (line.length - (lstrip line).length) / 2 - 1)]

theorem processLine_ok {st : BuildState} {line : String}
    (hlen : st.last_nodes.length = 100) (hlt : lineLevel line < 100) :
    ∃ st1, processLine st line = some st1 := by
  have hlt' : (line.length - (lstrip line).length) / 2 < 100 := hlt
  by_cases hne : lstrip line = ""
  · exact ⟨st, processLine_skip hne⟩
  · unfold processLine
    rw [if_neg hne]
    by_cases hl0 : (line.length - (lstrip line).length) / 2 = 0
    · rw [if_pos hl0]
      unfold setLast
      rw [if_pos (by omega : (line.length - (lstrip line).length) / 2 < st.last_nodes.length)]
      exact ⟨_, rfl⟩
    · rw [if_neg hl0]
      have hr : (line.length - (lstrip line).length) / 2 - 1 < st.last_nodes.length := by omega
      rcases hv : st.last_nodes[(line.length - (lstrip line).length) / 2 - 1]? with _ | o
      · exact absurd (List.getElem?_eq_none_iff.mp hv) (by omega)
      · rcases o with _ | p
        · show ∃ st1, setLast _ _ _ = some st1
          unfold setLast
          rw [if_pos (by omega : (line.length - (lstrip line).length) / 2 < st.last_nodes.length)]
          exact ⟨_, rfl⟩
        · show ∃ st1, setLast _ _ _ = some st1
          unfold setLast
          rw [if_pos (by omega : (line.length - (lstrip line).length) / 2 < st.last_nodes.length)]
          exact ⟨_, rfl⟩

theorem processLine_lastLen {st st' : BuildState} {line : String}
    (h : processLine st line = some st') :
    st'.last_nodes.length = st.last_nodes.length := by
  by_cases hskip : lstrip line = ""
  · rw [processLine_skip hskip] at h
    cases h
    rfl
  · rcases processLine_inversion hskip h with ⟨hl, hlt, rfl⟩ | ⟨h1, hlt, hnone, rfl⟩ |
      ⟨p, h1, hlt, hsome, rfl⟩ <;>
    · show (st.last_nodes.set _ _).length = st.last_nodes.length
      rw [List.length_set]

theorem buildAux_isSome :
    ∀ (lines : List String) (st : BuildState), st.last_nodes.length = 100 →
      ((buildAux lines st).isSome = true ↔ ∀ l ∈ lines, lstrip l ≠ "" → lineLevel l < 100)
  | [], st, _ => by simp [buildAux]
  | l :: ls, st, hlen => by
    unfold buildAux
    by_cases hne : lstrip l = ""
    · rw [processLine_skip hne, buildAux_isSome ls st hlen]
      constructor
      · intro h l' hl' hn
        rcases List.mem_cons.mp hl' with rfl | hl''
        · exact absurd hne hn
        · exact h l' hl'' hn
      · intro h l' hl' hn
        exact h l' (List.mem_cons_of_mem l hl') hn
    · by_cases hlt : lineLevel l < 100
      · obtain ⟨st1, hst1⟩ := processLine_ok hlen hlt
        rw [hst1, buildAux_isSome ls st1 (by rw [processLine_lastLen hst1]; exact hlen)]
        constructor
        · intro h l' hl' hn
          rcases List.mem_cons.mp hl' with rfl | hl''
          · exact hlt
          · exact h l' hl'' hn
        · intro h l' hl' hn
          exact h l' (List.mem_cons_of_mem l hl') hn
      · rw [processLine_oob hlen hne (by omega)]
        constructor
        · intro h
          exact absurd h (by simp)
        · intro h
          exact absurd (h l (List.mem_cons_self l ls) hne) hlt

theorem exists_last_before (P : Nat → Prop) :
    ∀ i, (∃ j, j < i ∧ P j) → ∃ p, p < i ∧ P p ∧ ∀ q, p < q → q < i → ¬ P q
  | 0, h => by
    obtain ⟨j, hj, -⟩ := h
    omega
  | i + 1, h => by
    by_cases hPi : P i
    · exact ⟨i, Nat.lt_succ_self i, hPi, fun q hq1 hq2 => ((by omega : False).elim)⟩
    · obtain ⟨j, hj, hPj⟩ := h
      have hji : j < i := by
        rcases Nat.lt_succ_iff_lt_or_eq.mp hj with h' | h'
        · exact h'
        · subst h'
          exact absurd hPj hPi
      obtain ⟨p, hp1, hp2, hp3⟩ := exists_last_before P i ⟨j, hji, hPj⟩
      refine ⟨p, by omega, hp2, ?_⟩
      intro q hq1 hq2
      by_cases hqi : q = i
      · subst hqi
        exact hPi
      · exact hp3 q hq1 (by omega)

/-- Count of leading whitespace characters: the length difference the code
computes equals the length of the whitespace prefix. -/
theorem lstrip_length (s : String) :
    s.length - (lstrip s).length = (s.data.takeWhile isPySpace).length := by
  show s.data.length - (s.data.dropWhile isPySpace).length = _
  have h : (s.data.takeWhile isPySpace).length + (s.data.dropWhile isPySpace).length
      = s.data.length := by
    conv_rhs => rw [← List.takeWhile_append_dropWhile (p := isPySpace) (l := s.data)]
    rw [List.length_append]
  omega

/-- The classification contract of the spec, with the amended content rule:
indent counts the leading whitespace characters, level is `indent / 2`, and
content is the line with its leading whitespace removed. -/
def spec_classify (line : String) : Option (String × Nat) :=
  let indent := (line.data.takeWhile isPySpace).length
  let content := String.mk (line.data.dropWhile isPySpace)
  if content = "" then none else some (content, indent / 2)

/-- The classification contract exactly as claimed: as `spec_classify`, but
the content additionally has its trailing whitespace removed. -/
def spec_classify_trim (line : String) : Option (String × Nat) :=
  let indent := (line.data.takeWhile isPySpace).length
  let content :=
    String.mk (((line.data.dropWhile isPySpace).reverse.dropWhile isPySpace).reverse)
  if content = "" then none else some (content, indent / 2)

theorem classifyLine_eq_spec (line : String) : classifyLine line = spec_classify line := by
  simp only [classifyLine, spec_classify, lineLevel, lstrip_length]
  rfl

theorem flatMap_toList_eq_filterMap (f : String → Option (String × Nat)) :
    ∀ l : List String, l.flatMap (fun x => (f x).toList) = l.filterMap f
  | [] => rfl
  | x :: xs => by
    rw [List.flatMap_cons, List.filterMap_cons]
    cases hx : f x
    · rw [Option.toList_none, List.nil_append, flatMap_toList_eq_filterMap f xs]
    · rw [Option.toList_some, List.singleton_append, flatMap_toList_eq_filterMap f xs]

/-! ## Derived facts -/

theorem parent_level {st : BuildState} (hInv : BuildInv st) {i p : Nat}
    (hp : parentAt st.nodes i = some p) :
    p < i ∧ i ∈ childrenAt st.nodes p ∧ levelAt st.nodes i = levelAt st.nodes p + 1 := by
  have hm := hInv.arena.parentChild i p hp
  have hf := hInv.arena.childFacts p i hm
  exact ⟨hf.1, hm, hf.2.2.1⟩

/-! ## Scenario states -/

def scenario1 : List String := ["Root", "  Child1", "  Child2", "    Grandchild"]

def sc1St : BuildState := (parse_tree_structure scenario1).getD initState

def sc3St : BuildState := (parse_tree_structure ["A", "B", "C"]).getD initState

def orphanSt : BuildState := (parse_tree_structure ["Root", "    Deep"]).getD initState

def trailSt : BuildState := (parse_tree_structure ["x "]).getD initState

/-- A line whose 200 leading spaces give it level 100. -/
def oobLine : String := String.mk (List.replicate 200 ' ' ++ ['x'])

/-! ## Claims -/

/-- C3: for every input, every node of the returned forest that has a parent
has level exactly one more than its parent; every attachment preserves this. -/
theorem C3_level_consistency (lines : List String) (st : BuildState)
    (h : parse_tree_structure lines = some st) (i p : Nat) (_hr : Reachable st i)
    (hp : parentAt st.nodes i = some p) :
    levelAt st.nodes i = levelAt st.nodes p + 1 :=
  (parent_level (parse_BuildInv h) hp).2.2

theorem C3_witness :
    parse_tree_structure scenario1 = some sc1St ∧
      levelAt sc1St.nodes 1 = levelAt sc1St.nodes 0 + 1 :=
  ⟨by decide, C3_level_consistency scenario1 sc1St (by decide) 1 0
    (@Reachable.child sc1St 0 1 (Reachable.root (by decide)) (by decide)) (by decide)⟩

/-- C6: the roots of the returned forest are exactly the level-0 nodes, in
input order, and a level-0 node is never attached as a child; three level-0
lines yield three childless roots in input order. -/
theorem C6_level0_roots :
    (∀ (lines : List String) (st : BuildState), parse_tree_structure lines = some st →
      st.root_nodes = (List.range st.nodes.length).filter (fun i => levelAt st.nodes i == 0) ∧
      ∀ i j, j ∈ childrenAt st.nodes i → levelAt st.nodes j ≠ 0) ∧
    (parse_tree_structure ["A", "B", "C"]).map
        (fun st => (st.root_nodes, st.nodes.map Node.text, st.nodes.map Node.children)) =
      some ([0, 1, 2], ["A", "B", "C"], [[], [], []]) := by
  constructor
  · intro lines st h
    have hInv := parse_BuildInv h
    refine ⟨hInv.rootsEq, ?_⟩
    intro i j hj
    have hf := (hInv.arena.childFacts i j hj).2.2.1
    omega
  · rfl

theorem C6_witness :
    sc3St.root_nodes =
      (List.range sc3St.nodes.length).filter (fun i => levelAt sc3St.nodes i == 0) :=
  (C6_level0_roots.1 ["A", "B", "C"] sc3St (by decide)).1

/-- C7: an input that is empty or all-blank after trimming yields an empty
forest as a normal result (no failure). -/
theorem C7_empty_input (lines : List String) (hb : ∀ l ∈ lines, lstrip l = "") :
    parse_tree_structure lines = some initState ∧ initState.root_nodes = [] ∧
      initState.nodes = [] :=
  ⟨buildAux_blank lines initState hb, rfl, rfl⟩

theorem C7_witness :
    (∀ l ∈ ["   ", ""], lstrip l = "") ∧
      parse_tree_structure ["   ", ""] = some initState :=
  ⟨by decide, (C7_empty_input ["   ", ""] (by decide)).1⟩

/-- C9: no node is in two children lists, none is in one children list
twice, and children always have larger indices than their parent (so the
forest has no sharing and no cycles). -/
theorem C9_no_sharing (lines : List String) (st : BuildState)
    (h : parse_tree_structure lines = some st) :
    (∀ a b j, j ∈ childrenAt st.nodes a → j ∈ childrenAt st.nodes b → a = b) ∧
    (∀ i, (childrenAt st.nodes i).Nodup) ∧
    (∀ i j, j ∈ childrenAt st.nodes i → i < j) := by
  have hInv := parse_BuildInv h
  refine ⟨?_, ?_, ?_⟩
  · intro a b j h1 h2
    have e1 := (hInv.arena.childFacts a j h1).2.2.2
    have e2 := (hInv.arena.childFacts b j h2).2.2.2
    rw [e1] at e2
    exact Option.some.inj e2
  · intro i
    have hpw : (childrenAt st.nodes i).Pairwise (· < ·) :=
      List.chain'_iff_pairwise.mp (hInv.arena.childChain i)
    exact hpw.imp Nat.ne_of_lt
  · intro i j hj
    exact (hInv.arena.childFacts i j hj).1

theorem C9_witness : (childrenAt sc1St.nodes 0).Nodup :=
  (C9_no_sharing scenario1 sc1St (by decide)).2.1 0

/-- C2: a node at level `L ≥ 1` with no earlier node at level `L - 1` gets
no parent, is not a root, sits in no children list, and is absent from the
returned forest; a single level-1 line yields an empty forest. -/
theorem C2_orphan_dropped :
    (∀ (lines : List String) (st : BuildState), parse_tree_structure lines = some st →
      ∀ i, i < st.nodes.length → 1 ≤ levelAt st.nodes i →
        (∀ j, j < i → levelAt st.nodes j ≠ levelAt st.nodes i - 1) →
        parentAt st.nodes i = none ∧ i ∉ st.root_nodes ∧
          (∀ q, i ∉ childrenAt st.nodes q) ∧ ¬ Reachable st i) ∧
    (parse_tree_structure ["  OrphanAtLevel1"]).map BuildState.root_nodes = some [] := by
  constructor
  · intro lines st h i hi hlev hnone
    have hInv := parse_BuildInv h
    have hpar : parentAt st.nodes i = none := by
      rcases hp : parentAt st.nodes i with _ | p
      · rfl
      · exfalso
        have hlast := (hInv.parentIff i p hi hlev).mp hp
        exact hnone p hlast.1 hlast.2.1
    have hroot : i ∉ st.root_nodes := by
      intro hmem
      rw [hInv.rootsEq] at hmem
      have hf := List.of_mem_filter hmem
      simp only [beq_iff_eq] at hf
      omega
    have hchild : ∀ q, i ∉ childrenAt st.nodes q := by
      intro q hmem
      have hf := (hInv.arena.childFacts q i hmem).2.2.2
      rw [hpar] at hf
      exact Option.noConfusion hf
    refine ⟨hpar, hroot, hchild, ?_⟩
    intro hr
    cases hr with
    | root hmem => exact hroot hmem
    | child hr' hmem => exact hchild _ hmem
  · rfl

theorem C2_witness :
    parentAt orphanSt.nodes 1 = none ∧ 1 ∉ orphanSt.root_nodes ∧
      (∀ q, 1 ∉ childrenAt orphanSt.nodes q) ∧ ¬ Reachable orphanSt 1 :=
  C2_orphan_dropped.1 ["Root", "    Deep"] orphanSt (by decide) 1 (by decide) (by decide)
    (by
      intro j hj hlev
      have hj0 : j = 0 := by omega
      subst hj0
      revert hlev
      decide)

/-- C8: `last_nodes` has fixed size 100, and the run succeeds exactly when
every classified line has level below 100; a level of 100 or more makes the
unguarded index access fail. -/
theorem C8_fixed_bounds :
    initState.last_nodes.length = 100 ∧
    ∀ lines : List String,
      ((parse_tree_structure lines).isSome = true ↔
        ∀ l ∈ lines, lstrip l ≠ "" → lineLevel l < 100) := by
  have hlen : initState.last_nodes.length = 100 := by
    show (List.replicate 100 (none : Option Nat)).length = 100
    rw [List.length_replicate]
  exact ⟨hlen, fun lines => buildAux_isSome lines initState hlen⟩

set_option maxRecDepth 4000 in
theorem C8_witness :
    (parse_tree_structure ["Root"]).isSome = true ∧
      (parse_tree_structure [oobLine]).isSome = false := by
  constructor
  · exact (C8_fixed_bounds.2 ["Root"]).mpr (by decide)
  · cases hbv : (parse_tree_structure [oobLine]).isSome with
    | false => rfl
    | true =>
      exfalso
      have hlt := (C8_fixed_bounds.2 [oobLine]).mp hbv oobLine
        (List.mem_cons_self _ _) (by decide)
      exact absurd hlt (by decide)

/-- C1: a node at level `L ≥ 1` with some earlier node at level `L - 1`
is attached as the last child (children are strictly increasing) of the
most recently created node at level `L - 1`, whatever that node is. -/
theorem C1_attach_to_last (lines : List String) (st : BuildState)
    (h : parse_tree_structure lines = some st) (i : Nat) (hi : i < st.nodes.length)
    (hlev : 1 ≤ levelAt st.nodes i)
    (hex : ∃ j, j < i ∧ levelAt st.nodes j = levelAt st.nodes i - 1) :
    ∃ p, IsLastBefore st.nodes i (levelAt st.nodes i - 1) p ∧
      parentAt st.nodes i = some p ∧ i ∈ childrenAt st.nodes p ∧
      List.Chain' (· < ·) (childrenAt st.nodes p) := by
  have hInv := parse_BuildInv h
  obtain ⟨p, hp1, hp2, hp3⟩ :=
    exists_last_before (fun j => levelAt st.nodes j = levelAt st.nodes i - 1) i hex
  have hlast : IsLastBefore st.nodes i (levelAt st.nodes i - 1) p := ⟨hp1, hp2, hp3⟩
  have hpar := (hInv.parentIff i p hi hlev).mpr hlast
  exact ⟨p, hlast, hpar, hInv.arena.parentChild i p hpar, hInv.arena.childChain p⟩

theorem C1_witness :
    (3 < sc1St.nodes.length ∧ 1 ≤ levelAt sc1St.nodes 3 ∧
      2 < 3 ∧ levelAt sc1St.nodes 2 = levelAt sc1St.nodes 3 - 1) ∧
    ∃ p, IsLastBefore sc1St.nodes 3 (levelAt sc1St.nodes 3 - 1) p ∧
      parentAt sc1St.nodes 3 = some p ∧ 3 ∈ childrenAt sc1St.nodes p ∧
      List.Chain' (· < ·) (childrenAt sc1St.nodes p) :=
  ⟨by decide, C1_attach_to_last scenario1 sc1St (by decide) 3 (by decide) (by decide)
    ⟨2, by decide, by decide⟩⟩

/-- C4 counterexample: for the line `"x "` the created node's text keeps the
trailing space, while the claimed leading-and-trailing trim would drop it. -/
theorem C4_counterexample :
    (parse_tree_structure ["x "]).map (fun st => st.nodes.map Node.text) = some ["x "] ∧
      ["x "].filterMap spec_classify_trim = [("x", 0)] ∧ ("x " : String) ≠ "x" :=
  ⟨rfl, rfl, by decide⟩

/-- C4 (amended): classification counts leading whitespace as the indent,
takes `indent / 2` as the level, and keeps the line with only its leading
whitespace removed as the content. -/
theorem C4_classification (lines : List String) (st : BuildState)
    (h : parse_tree_structure lines = some st) :
    st.nodes.map (fun nd => (nd.text, nd.level)) = lines.filterMap spec_classify := by
  rw [parse_pairs h, ← flatMap_toList_eq_filterMap]
  simp only [classifyLine_eq_spec]

theorem C4_witness :
    trailSt.nodes.map (fun nd => (nd.text, nd.level)) = ["x "].filterMap spec_classify :=
  C4_classification ["x "] trailSt (by decide)

/-! ## Ancestor chains and depth-first traversal -/

theorem ancChain_none {ns : List Node} {i : Nat} (h : parentAt ns i = none) :
    ancChain ns i = [i] := by
  unfold ancChain
  simp only [h]

theorem ancChain_some {ns : List Node} {i p : Nat} (h : parentAt ns i = some p)
    (hp : p < i) : ancChain ns i = i :: ancChain ns p := by
  conv_lhs => rw [ancChain]
  simp only [h]
  rw [dif_pos hp]

theorem ancChain_head (ns : List Node) (i : Nat) :
    ∃ t, ancChain ns i = i :: t := by
  rcases hpar : parentAt ns i with _ | p
  · exact ⟨[], ancChain_none hpar⟩
  · by_cases hp : p < i
    · exact ⟨ancChain ns p, ancChain_some hpar hp⟩
    · refine ⟨[], ?_⟩
      unfold ancChain
      simp only [hpar]
      rw [dif_neg hp]

theorem ancChain_self_mem (ns : List Node) (i : Nat) : i ∈ ancChain ns i := by
  obtain ⟨t, ht⟩ := ancChain_head ns i
  rw [ht]
  exact List.mem_cons_self i t

theorem ancChain_le (ns : List Node) :
    ∀ i j, j ∈ ancChain ns i → j ≤ i := by
  intro i
  induction i using Nat.strong_induction_on with
  | _ i ih =>
    intro j hj
    rcases hpar : parentAt ns i with _ | p
    · rw [ancChain_none hpar] at hj
      rw [List.mem_singleton.mp hj]
    · by_cases hp : p < i
      · rw [ancChain_some hpar hp] at hj
        rcases List.mem_cons.mp hj with rfl | hj'
        · exact Nat.le_refl j
        · exact Nat.le_of_lt (Nat.lt_of_le_of_lt (ih p hp j hj') hp)
      · unfold ancChain at hj
        simp only [hpar] at hj
        rw [dif_neg hp] at hj
        rw [List.mem_singleton.mp hj]

theorem ancChain_parent_mem {ns : List Node}
    (hwf : ∀ j q, parentAt ns j = some q → q < j) :
    ∀ i c r, c ∈ ancChain ns i → parentAt ns c = some r → r ∈ ancChain ns i := by
  intro i
  induction i using Nat.strong_induction_on with
  | _ i ih =>
    intro c r hc hcr
    rcases hpar : parentAt ns i with _ | p
    · rw [ancChain_none hpar] at hc
      rw [List.mem_singleton.mp hc] at hcr
      rw [hpar] at hcr
      exact Option.noConfusion hcr
    · have hp : p < i := hwf i p hpar
      rw [ancChain_some hpar hp] at hc ⊢
      rcases List.mem_cons.mp hc with rfl | hc'
      · rw [hpar] at hcr
        cases hcr
        exact List.mem_cons_of_mem _ (ancChain_self_mem ns r)
      · exact List.mem_cons_of_mem _ (ih p hp c r hc' hcr)

theorem ancChain_linear (ns : List Node) :
    ∀ i a b, a ∈ ancChain ns i → b ∈ ancChain ns i →
      a ∈ ancChain ns b ∨ b ∈ ancChain ns a := by
  intro i
  induction i using Nat.strong_induction_on with
  | _ i ih =>
    intro a b ha hb
    rcases hpar : parentAt ns i with _ | p
    · rw [ancChain_none hpar] at ha hb
      rw [List.mem_singleton.mp ha, List.mem_singleton.mp hb]
      exact Or.inl (ancChain_self_mem ns i)
    · by_cases hp : p < i
      · rw [ancChain_some hpar hp] at ha hb
        rcases List.mem_cons.mp ha with ha0 | ha'
        · rcases List.mem_cons.mp hb with hb0 | hb'
          · rw [ha0, hb0]
            exact Or.inl (ancChain_self_mem ns i)
          · rw [ha0]
            refine Or.inr ?_
            rw [ancChain_some hpar hp]
            exact List.mem_cons_of_mem _ hb'
        · rcases List.mem_cons.mp hb with hb0 | hb'
          · rw [hb0]
            refine Or.inl ?_
            rw [ancChain_some hpar hp]
            exact List.mem_cons_of_mem _ ha'
          · exact ih p hp a b ha' hb'
      · unfold ancChain at ha hb
        simp only [hpar] at ha hb
        rw [dif_neg hp] at ha hb
        rw [List.mem_singleton.mp ha, List.mem_singleton.mp hb]
        exact Or.inl (ancChain_self_mem ns i)

theorem ancChain_strict {ns : List Node}
    (hwf : ∀ j q, parentAt ns j = some q → q < j) :
    ∀ b a, a ∈ ancChain ns b → a ≠ b → ∃ q, parentAt ns b = some q ∧ a ∈ ancChain ns q := by
  intro b a hab hne
  rcases hpar : parentAt ns b with _ | p
  · rw [ancChain_none hpar] at hab
    exact absurd (List.mem_singleton.mp hab) hne
  · have hp : p < b := hwf b p hpar
    rw [ancChain_some hpar hp] at hab
    rcases List.mem_cons.mp hab with rfl | hab'
    · exact absurd rfl hne
    · exact ⟨p, rfl, hab'⟩

theorem ancChain_parent_unique {ns : List Node}
    (hwf : ∀ j q, parentAt ns j = some q → q < j) :
    ∀ i a b r, a ∈ ancChain ns i → b ∈ ancChain ns i →
      parentAt ns a = some r → parentAt ns b = some r → a = b := by
  intro i a b r ha hb har hbr
  rcases ancChain_linear ns i a b ha hb with hab | hba
  · by_cases hne : a = b
    · exact hne
    · obtain ⟨q, hq1, hq2⟩ := ancChain_strict hwf b a hab hne
      rw [hbr] at hq1
      cases hq1
      have h1 : a ≤ r := ancChain_le ns r a hq2
      have h2 : r < a := hwf a r har
      omega
  · by_cases hne : a = b
    · exact hne
    · obtain ⟨q, hq1, hq2⟩ := ancChain_strict hwf a b hba (fun hh => hne hh.symm)
      rw [har] at hq1
      cases hq1
      have h1 : b ≤ r := ancChain_le ns r b hq2
      have h2 : r < b := hwf b r hbr
      omega

theorem ancChain_child_step {ns : List Node}
    (hwf : ∀ j q, parentAt ns j = some q → q < j) :
    ∀ i r, r ∈ ancChain ns i → r ≠ i → ∃ c, c ∈ ancChain ns i ∧ parentAt ns c = some r := by
  intro i
  induction i using Nat.strong_induction_on with
  | _ i ih =>
    intro r hr hne
    rcases hpar : parentAt ns i with _ | p
    · rw [ancChain_none hpar] at hr
      exact absurd (List.mem_singleton.mp hr) hne
    · have hp : p < i := hwf i p hpar
      rw [ancChain_some hpar hp] at hr
      rcases List.mem_cons.mp hr with rfl | hr'
      · exact absurd rfl hne
      · by_cases hrp : r = p
        · subst hrp
          exact ⟨i, ancChain_self_mem ns i, hpar⟩
        · obtain ⟨c, hc1, hc2⟩ := ih p hp r hr' hrp
          refine ⟨c, ?_, hc2⟩
          rw [ancChain_some hpar hp]
          exact List.mem_cons_of_mem _ hc1

theorem arena_hwf {ns : List Node} (A : ArenaInv ns) :
    ∀ j q, parentAt ns j = some q → q < j :=
  fun j q h => (A.childFacts q j (A.parentChild j q h)).1

theorem mem_dfsNode_imp {ns : List Node} (A : ArenaInv ns) :
    ∀ (fuel r i : Nat), i ∈ dfsNode ns fuel r → r ∈ ancChain ns i
  | 0, r, i, h => absurd h (List.not_mem_nil i)
  | fuel + 1, r, i, h => by
    rcases List.mem_cons.mp h with h0 | h'
    · rw [h0]
      exact ancChain_self_mem ns r
    · obtain ⟨c, hc, hdfs⟩ := List.mem_flatMap.mp h'
      have hanc : c ∈ ancChain ns i := mem_dfsNode_imp A fuel c i hdfs
      exact ancChain_parent_mem (arena_hwf A) i c r hanc (A.childFacts r c hc).2.2.2

theorem mem_dfsNode_lt {ns : List Node} (A : ArenaInv ns) :
    ∀ (fuel r i : Nat), r < ns.length → i ∈ dfsNode ns fuel r → i < ns.length
  | 0, r, i, _, h => absurd h (List.not_mem_nil i)
  | fuel + 1, r, i, hr, h => by
    rcases List.mem_cons.mp h with h0 | h'
    · rw [h0]
      exact hr
    · obtain ⟨c, hc, hdfs⟩ := List.mem_flatMap.mp h'
      exact mem_dfsNode_lt A fuel c i (A.childFacts r c hc).2.1 hdfs

theorem mem_dfsNode_of_anc {ns : List Node} (A : ArenaInv ns) :
    ∀ (fuel i r : Nat), r ∈ ancChain ns i → i < ns.length → ns.length - r ≤ fuel →
      i ∈ dfsNode ns fuel r
  | 0, i, r, hr, hi, hfuel => by
    have h1 : r ≤ i := ancChain_le ns i r hr
    omega
  | fuel + 1, i, r, hr, hi, hfuel => by
    by_cases hri : r = i
    · rw [hri]
      exact List.mem_cons_self i _
    · obtain ⟨c, hc, hcr⟩ := ancChain_child_step (arena_hwf A) i r hr (fun hh => hri hh)
      have hrc : r < c := arena_hwf A c r hcr
      have hci : c ≤ i := ancChain_le ns i c hc
      have hmem : i ∈ dfsNode ns fuel c :=
        mem_dfsNode_of_anc A fuel i c hc hi (by omega)
      refine List.mem_cons_of_mem r (List.mem_flatMap.mpr ⟨c, ?_, hmem⟩)
      exact A.parentChild c r hcr

theorem dfsNode_nodup {ns : List Node} (A : ArenaInv ns) :
    ∀ (fuel r : Nat), (dfsNode ns fuel r).Nodup
  | 0, r => List.nodup_nil
  | fuel + 1, r => by
    refine List.nodup_cons.mpr ⟨?_, ?_⟩
    · intro hmem
      obtain ⟨c, hc, hdfs⟩ := List.mem_flatMap.mp hmem
      have hanc : c ∈ ancChain ns r := mem_dfsNode_imp A fuel c r hdfs
      have h1 : c ≤ r := ancChain_le ns r c hanc
      have h2 : r < c := (A.childFacts r c hc).1
      omega
    · refine List.nodup_flatMap.mpr ⟨fun c _ => dfsNode_nodup A fuel c, ?_⟩
      have hpw : (childrenAt ns r).Pairwise (· < ·) :=
        List.chain'_iff_pairwise.mp (A.childChain r)
      refine hpw.imp_of_mem ?_
      intro c1 c2 hc1 hc2 hlt
      intro i h1 h2
      have ha1 : c1 ∈ ancChain ns i := mem_dfsNode_imp A fuel c1 i h1
      have ha2 : c2 ∈ ancChain ns i := mem_dfsNode_imp A fuel c2 i h2
      have heq : c1 = c2 := ancChain_parent_unique (arena_hwf A) i c1 c2 r ha1 ha2
        (A.childFacts r c1 hc1).2.2.2 (A.childFacts r c2 hc2).2.2.2
      omega

theorem topAnc_none {ns : List Node} {i : Nat} (h : parentAt ns i = none) :
    topAnc ns i = i := by
  unfold topAnc
  simp only [h]

theorem topAnc_some {ns : List Node} {i p : Nat} (h : parentAt ns i = some p)
    (hp : p < i) : topAnc ns i = topAnc ns p := by
  conv_lhs => rw [topAnc]
  simp only [h]
  rw [dif_pos hp]

theorem topAnc_mem (ns : List Node) :
    ∀ i, topAnc ns i ∈ ancChain ns i := by
  intro i
  induction i using Nat.strong_induction_on with
  | _ i ih =>
    rcases hpar : parentAt ns i with _ | p
    · rw [topAnc_none hpar, ancChain_none hpar]
      exact List.mem_singleton.mpr rfl
    · by_cases hp : p < i
      · rw [topAnc_some hpar hp, ancChain_some hpar hp]
        exact List.mem_cons_of_mem _ (ih p hp)
      · have h1 : topAnc ns i = i := by
          conv_lhs => rw [topAnc]
          simp only [hpar]
          rw [dif_neg hp]
        have h2 : ancChain ns i = [i] := by
          conv_lhs => rw [ancChain]
          simp only [hpar]
          rw [dif_neg hp]
        rw [h1, h2]
        exact List.mem_singleton.mpr rfl

theorem topAnc_eq_of_mem {ns : List Node}
    (hwf : ∀ j q, parentAt ns j = some q → q < j) :
    ∀ i r, r ∈ ancChain ns i → parentAt ns r = none → topAnc ns i = r := by
  intro i
  induction i using Nat.strong_induction_on with
  | _ i ih =>
    intro r hr hrn
    rcases hpar : parentAt ns i with _ | p
    · rw [ancChain_none hpar] at hr
      rw [topAnc_none hpar, List.mem_singleton.mp hr]
    · have hp : p < i := hwf i p hpar
      rw [ancChain_some hpar hp] at hr
      rcases List.mem_cons.mp hr with hr0 | hr'
      · rw [← hr0] at hpar
        rw [hpar] at hrn
        exact Option.noConfusion hrn
      · rw [topAnc_some hpar hp]
        exact ih p hp r hr' hrn

theorem parentAt_topAnc {ns : List Node}
    (hwf : ∀ j q, parentAt ns j = some q → q < j) :
    ∀ i, parentAt ns (topAnc ns i) = none := by
  intro i
  induction i using Nat.strong_induction_on with
  | _ i ih =>
    rcases hpar : parentAt ns i with _ | p
    · rw [topAnc_none hpar]
      exact hpar
    · have hp : p < i := hwf i p hpar
      rw [topAnc_some hpar hp]
      exact ih p hp

theorem mem_roots_iff {st : BuildState} (hInv : BuildInv st) (r : Nat) :
    r ∈ st.root_nodes ↔ r < st.nodes.length ∧ levelAt st.nodes r = 0 := by
  rw [hInv.rootsEq, List.mem_filter, List.mem_range, beq_iff_eq]

theorem level0_parent_none {st : BuildState} (hInv : BuildInv st) {r : Nat}
    (h : levelAt st.nodes r = 0) : parentAt st.nodes r = none := by
  rcases hp : parentAt st.nodes r with _ | q
  · rfl
  · have := (parent_level hInv hp).2.2
    omega

theorem mem_dfsForest_iff {st : BuildState} (hInv : BuildInv st) (i : Nat) :
    i ∈ dfsForest st ↔
      i < st.nodes.length ∧ levelAt st.nodes (topAnc st.nodes i) = 0 := by
  constructor
  · intro h
    obtain ⟨r, hr, hdfs⟩ := List.mem_flatMap.mp h
    obtain ⟨hrlt, hrlev⟩ := (mem_roots_iff hInv r).mp hr
    have hanc : r ∈ ancChain st.nodes i := mem_dfsNode_imp hInv.arena _ r i hdfs
    have htop : topAnc st.nodes i = r :=
      topAnc_eq_of_mem (arena_hwf hInv.arena) i r hanc (level0_parent_none hInv hrlev)
    exact ⟨mem_dfsNode_lt hInv.arena _ r i hrlt hdfs, htop ▸ hrlev⟩
  · rintro ⟨hi, hlev⟩
    have hanc : topAnc st.nodes i ∈ ancChain st.nodes i := topAnc_mem st.nodes i
    have hle : topAnc st.nodes i ≤ i := ancChain_le st.nodes i _ hanc
    have hroot : topAnc st.nodes i ∈ st.root_nodes :=
      (mem_roots_iff hInv _).mpr ⟨by omega, hlev⟩
    refine List.mem_flatMap.mpr ⟨topAnc st.nodes i, hroot, ?_⟩
    exact mem_dfsNode_of_anc hInv.arena st.nodes.length i _ hanc hi (by omega)

theorem reachable_of_anc_root {st : BuildState} (hInv : BuildInv st) :
    ∀ i r, r ∈ st.root_nodes → r ∈ ancChain st.nodes i → Reachable st i := by
  intro i
  induction i using Nat.strong_induction_on with
  | _ i ih =>
    intro r hr hanc
    by_cases hri : r = i
    · rw [← hri]
      exact Reachable.root hr
    · obtain ⟨q, hq1, hq2⟩ := ancChain_strict (arena_hwf hInv.arena) i r hanc hri
      have hq : q < i := arena_hwf hInv.arena i q hq1
      exact Reachable.child (ih q hq r hr hq2) (hInv.arena.parentChild i q hq1)

theorem mem_dfsForest_of_reachable {st : BuildState} (hInv : BuildInv st) :
    ∀ i, Reachable st i → i ∈ dfsForest st := by
  intro i hr
  induction hr with
  | root hmem =>
    next r =>
      obtain ⟨hrlt, -⟩ := (mem_roots_iff hInv r).mp hmem
      exact List.mem_flatMap.mpr ⟨r, hmem,
        mem_dfsNode_of_anc hInv.arena st.nodes.length r r (ancChain_self_mem _ _) hrlt
          (by omega)⟩
  | child hr' hmem ih =>
    next a b =>
      obtain ⟨r, hroot, hdfs⟩ := List.mem_flatMap.mp ih
      have hanc : r ∈ ancChain st.nodes a := mem_dfsNode_imp hInv.arena _ r a hdfs
      have hpar : parentAt st.nodes b = some a := (hInv.arena.childFacts a b hmem).2.2.2
      have halt : a < b := arena_hwf hInv.arena b a hpar
      have hancb : r ∈ ancChain st.nodes b := by
        rw [ancChain_some hpar halt]
        exact List.mem_cons_of_mem _ hanc
      have hblt : b < st.nodes.length := (hInv.arena.childFacts a b hmem).2.1
      exact List.mem_flatMap.mpr ⟨r, hroot,
        mem_dfsNode_of_anc hInv.arena st.nodes.length b r hancb hblt (by omega)⟩

theorem mem_dfsForest_iff_reachable {st : BuildState} (hInv : BuildInv st) (i : Nat) :
    i ∈ dfsForest st ↔ Reachable st i := by
  constructor
  · intro h
    obtain ⟨r, hr, hdfs⟩ := List.mem_flatMap.mp h
    exact reachable_of_anc_root hInv i r hr (mem_dfsNode_imp hInv.arena _ r i hdfs)
  · exact mem_dfsForest_of_reachable hInv i

theorem dfsForest_nodup {st : BuildState} (hInv : BuildInv st) :
    (dfsForest st).Nodup := by
  have hroots : st.root_nodes.Nodup := by
    rw [hInv.rootsEq]
    exact (List.nodup_range _).filter _
  refine List.nodup_flatMap.mpr ⟨fun r _ => dfsNode_nodup hInv.arena _ r, ?_⟩
  have hpw : st.root_nodes.Pairwise (· ≠ ·) := hroots
  refine hpw.imp_of_mem ?_
  intro r1 r2 hr1 hr2 hne
  intro i h1 h2
  have ha1 : r1 ∈ ancChain st.nodes i := mem_dfsNode_imp hInv.arena _ r1 i h1
  have ha2 : r2 ∈ ancChain st.nodes i := mem_dfsNode_imp hInv.arena _ r2 i h2
  have hn1 : parentAt st.nodes r1 = none :=
    level0_parent_none hInv ((mem_roots_iff hInv r1).mp hr1).2
  have hn2 : parentAt st.nodes r2 = none :=
    level0_parent_none hInv ((mem_roots_iff hInv r2).mp hr2).2
  rcases ancChain_linear st.nodes i r1 r2 ha1 ha2 with hh | hh
  · rw [ancChain_none hn2] at hh
    exact hne (List.mem_singleton.mp hh)
  · rw [ancChain_none hn1] at hh
    exact hne (List.mem_singleton.mp hh).symm

theorem dfsForest_perm_filter {st : BuildState} (hInv : BuildInv st) :
    List.Perm (dfsForest st)
      ((List.range st.nodes.length).filter
        (fun i => levelAt st.nodes (topAnc st.nodes i) == 0)) := by
  have h1 : (dfsForest st).Nodup := dfsForest_nodup hInv
  have h2 : ((List.range st.nodes.length).filter
      (fun i => levelAt st.nodes (topAnc st.nodes i) == 0)).Nodup :=
    (List.nodup_range _).filter _
  have hsub1 : dfsForest st ⊆ (List.range st.nodes.length).filter
      (fun i => levelAt st.nodes (topAnc st.nodes i) == 0) := by
    intro i hi
    obtain ⟨hlt, hlev⟩ := (mem_dfsForest_iff hInv i).mp hi
    exact List.mem_filter.mpr ⟨List.mem_range.mpr hlt, beq_iff_eq.mpr hlev⟩
  have hsub2 : (List.range st.nodes.length).filter
      (fun i => levelAt st.nodes (topAnc st.nodes i) == 0) ⊆ dfsForest st := by
    intro i hi
    obtain ⟨hr, hb⟩ := List.mem_filter.mp hi
    exact (mem_dfsForest_iff hInv i).mpr ⟨List.mem_range.mp hr, beq_iff_eq.mp hb⟩
  exact (h1.subperm hsub1).antisymm (h2.subperm hsub2)

theorem range_map_textAt :
    ∀ ns : List Node, (List.range ns.length).map (textAt ns) = ns.map Node.text
  | [] => rfl
  | nd :: ns => by
    rw [List.length_cons, List.range_succ_eq_map, List.map_cons, List.map_map,
      List.map_cons]
    congr 1
    · unfold textAt
      rw [List.getElem?_cons_zero]
      rfl
    · have hc : (textAt (nd :: ns)) ∘ Nat.succ = textAt ns := funext fun i => by
        show textAt (nd :: ns) (i + 1) = textAt ns i
        unfold textAt
        rw [List.getElem?_cons_succ]
      rw [hc, range_map_textAt ns]

/-- C5 counterexample: the depth-first concatenation is not always a
subsequence of the classified input order — a deep line created after a
later root still attaches inside the earlier root's subtree. -/
theorem C5_counterexample :
    (parse_tree_structure ["A", "  a1", "B", "    x"]).map dfsTexts =
        some ["A", "a1", "x", "B"] ∧
      ["A", "  a1", "B", "    x"].filterMap (fun s => (classifyLine s).map Prod.fst) =
        ["A", "a1", "B", "x"] ∧
      ¬ List.Sublist ["A", "a1", "x", "B"] ["A", "a1", "B", "x"] := by
  refine ⟨rfl, rfl, ?_⟩
  intro hs
  exact absurd (hs.eq_of_length rfl) (by decide)

/-- C5 (amended): the depth-first concatenation of the forest's texts is a
permutation of a subsequence of the classified input order: each retained
node's text appears exactly once, but the traversal order itself need not
be a subsequence of the input order. -/
theorem C5_traversal_order (lines : List String) (st : BuildState)
    (h : parse_tree_structure lines = some st) :
    ∃ l, List.Perm (dfsTexts st) l ∧
      List.Sublist l (lines.filterMap (fun s => (classifyLine s).map Prod.fst)) := by
  have hInv := parse_BuildInv h
  refine ⟨((List.range st.nodes.length).filter
      (fun i => levelAt st.nodes (topAnc st.nodes i) == 0)).map (textAt st.nodes), ?_, ?_⟩
  · exact (dfsForest_perm_filter hInv).map _
  · have hs2 := (List.filter_sublist (List.range st.nodes.length)
      (p := fun i => levelAt st.nodes (topAnc st.nodes i) == 0)).map (textAt st.nodes)
    rw [range_map_textAt] at hs2
    have htext : st.nodes.map Node.text =
        lines.filterMap (fun s => (classifyLine s).map Prod.fst) := by
      have hp := parse_pairs h
      rw [flatMap_toList_eq_filterMap] at hp
      have h2 := congrArg (List.map Prod.fst) hp
      rw [List.map_map, List.map_filterMap] at h2
      exact h2
    rw [← htext]
    exact hs2

theorem C5_witness :
    ∃ l, List.Perm (dfsTexts sc1St) l ∧
      List.Sublist l (scenario1.filterMap (fun s => (classifyLine s).map Prod.fst)) :=
  C5_traversal_order scenario1 sc1St (by decide)

def orphan2St : BuildState := (parse_tree_structure ["  A", "    B"]).getD initState

/-- C10: the returned forest contains exactly the nodes reachable from a
level-0 root through children links; a node attached under an orphan keeps
its parent pointer and sits in the orphan's children list, yet is absent
from the forest (dropping is transitive over whole subtrees). -/
theorem C10_forest_exactly_reachable :
    (∀ (lines : List String) (st : BuildState), parse_tree_structure lines = some st →
      ∀ i, (i ∈ dfsForest st ↔ Reachable st i) ∧
        (i ∈ dfsForest st ↔
          i < st.nodes.length ∧ levelAt st.nodes (topAnc st.nodes i) = 0)) ∧
    ((parse_tree_structure ["  A", "    B"]).map
        (fun st => (st.root_nodes, parentAt st.nodes 1, childrenAt st.nodes 0, dfsForest st)) =
      some ([], some 0, [1], [])) := by
  constructor
  · intro lines st h i
    have hInv := parse_BuildInv h
    exact ⟨mem_dfsForest_iff_reachable hInv i, mem_dfsForest_iff hInv i⟩
  · rfl

theorem C10_witness :
    1 ∈ dfsForest orphan2St ↔
      1 < orphan2St.nodes.length ∧ levelAt orphan2St.nodes (topAnc orphan2St.nodes 1) = 0 :=
  (C10_forest_exactly_reachable.1 ["  A", "    B"] orphan2St (by decide) 1).2
